import Mathlib

/-!
Verification of the revenue-assurance reconciliation pipeline
(`pipeline/reconciliation.py` and `pipeline/combine_commissions.py`).

Modelling conventions:
* Python strings are Lean `String`s (lists of characters).
* A missing cell (pandas `NaN` / `pd.NA`) is `none`; a present cell is `some v`.
* Monetary amounts are rationals; `pd.to_numeric(..., errors="coerce")`
  followed by `fillna(0)` is modelled by an `Option ℚ` cell read with
  default `0` (`none` stands for a value that does not parse as a number).
* Data frames are lists of rows; claims about the pipeline concern row
  multisets, counts and sums, so the pandas row ordering is not modelled.
-/

namespace Pipeline

/-- Whitespace test of Python `str.strip()`, restricted to the ASCII
whitespace characters. -/
def pyIsSpace (c : Char) : Bool :=
  c == ' ' || c == '\t' || c == '\n' || c == '\r' || c == '\x0b' || c == '\x0c'

/-- `str.strip()`: drop leading and trailing whitespace characters. -/
def stripChars (l : List Char) : List Char :=
  ((l.dropWhile pyIsSpace).reverse.dropWhile pyIsSpace).reverse

/-- The character class `[0-9A-Za-z]` of the regex in `normalize_key`
(reconciliation.py line 23): ASCII digits and letters. -/
def isAsciiAlnum (c : Char) : Bool :=
  (48 ≤ c.toNat && c.toNat ≤ 57) ||
  (65 ≤ c.toNat && c.toNat ≤ 90) ||
  (97 ≤ c.toNat && c.toNat ≤ 122)

/-- Character-level body of `normalize_key` (reconciliation.py lines 19-25):
`str.strip()`, then `str.replace(r"[^0-9A-Za-z]", "")`, then `str.upper()`. -/
def normChars (l : List Char) : List Char :=
  ((stripChars l).filter isAsciiAlnum).map Char.toUpper

/-- `normalize_key` (reconciliation.py lines 19-25) applied to one string. -/
def normalize_key (s : String) : String :=
  String.mk (normChars s.data)

theorem char_toNat_ofNat {n : Nat} (h : n < 55296) : (Char.ofNat n).toNat = n := by
  have hv : n.isValidChar := Or.inl h
  rw [Char.ofNat, dif_pos hv]
  rfl

theorem toUpper_toNat_of_lower {c : Char} (h1 : 97 ≤ c.toNat) (h2 : c.toNat ≤ 122) :
    c.toUpper.toNat = c.toNat - 32 := by
  rw [Char.toUpper]
  simp only [h1, h2, and_self, if_pos, ge_iff_le]
  exact char_toNat_ofNat (by omega)

theorem toUpper_of_not_lower {c : Char} (h : ¬(97 ≤ c.toNat ∧ c.toNat ≤ 122)) :
    c.toUpper = c := by
  rw [Char.toUpper]
  exact if_neg h

theorem isAsciiAlnum_toUpper {c : Char} (h : isAsciiAlnum c = true) :
    isAsciiAlnum c.toUpper = true := by
  by_cases hl : 97 ≤ c.toNat ∧ c.toNat ≤ 122
  · have := toUpper_toNat_of_lower hl.1 hl.2
    simp only [isAsciiAlnum, this, Bool.or_eq_true, Bool.and_eq_true, decide_eq_true_eq]
    omega
  · rw [toUpper_of_not_lower hl]
    exact h

theorem toUpper_toUpper (c : Char) : c.toUpper.toUpper = c.toUpper := by
  by_cases hl : 97 ≤ c.toNat ∧ c.toNat ≤ 122
  · have hn := toUpper_toNat_of_lower hl.1 hl.2
    apply toUpper_of_not_lower
    omega
  · rw [toUpper_of_not_lower hl, toUpper_of_not_lower hl]

theorem char_ne_of_toNat_ne {c d : Char} (h : c.toNat ≠ d.toNat) : (c == d) = false := by
  apply beq_eq_false_iff_ne.mpr
  intro he
  exact h (congrArg Char.toNat he)

theorem pyIsSpace_eq_false_of_isAsciiAlnum {c : Char} (h : isAsciiAlnum c = true) :
    pyIsSpace c = false := by
  have hb : (48 ≤ c.toNat ∧ c.toNat ≤ 57 ∨ 65 ≤ c.toNat ∧ c.toNat ≤ 90) ∨
      (97 ≤ c.toNat ∧ c.toNat ≤ 122) := by
    simpa [isAsciiAlnum, Bool.or_eq_true, Bool.and_eq_true, decide_eq_true_eq] using h
  have hne : ∀ n : Nat, n = 32 ∨ n = 9 ∨ n = 10 ∨ n = 13 ∨ n = 11 ∨ n = 12 →
      c.toNat ≠ n := by omega
  simp only [pyIsSpace, Bool.or_eq_false_iff]
  refine ⟨⟨⟨⟨⟨?_, ?_⟩, ?_⟩, ?_⟩, ?_⟩, ?_⟩ <;>
    exact char_ne_of_toNat_ne (by first
      | exact hne 32 (by omega)
      | exact hne 9 (by omega)
      | exact hne 10 (by omega)
      | exact hne 13 (by omega)
      | exact hne 11 (by omega)
      | exact hne 12 (by omega))

theorem dropWhile_eq_self_of_no_sat {p : Char → Bool} {l : List Char}
    (h : ∀ c ∈ l, p c = false) : l.dropWhile p = l := by
  cases l with
  | nil => rfl
  | cons a l =>
      rw [List.dropWhile_cons]
      simp [h a (List.mem_cons_self a l)]

theorem stripChars_eq_of_no_space {l : List Char}
    (h : ∀ c ∈ l, pyIsSpace c = false) : stripChars l = l := by
  unfold stripChars
  rw [dropWhile_eq_self_of_no_sat h]
  rw [dropWhile_eq_self_of_no_sat (fun c hc => h c (List.mem_reverse.mp hc))]
  exact List.reverse_reverse l

theorem mem_normChars {c : Char} {l : List Char} (h : c ∈ normChars l) :
    ∃ d, isAsciiAlnum d = true ∧ c = d.toUpper := by
  unfold normChars at h
  obtain ⟨d, hd, rfl⟩ := List.mem_map.mp h
  exact ⟨d, (List.mem_filter.mp hd).2, rfl⟩

theorem normChars_idem (l : List Char) : normChars (normChars l) = normChars l := by
  have halnum : ∀ c ∈ normChars l, isAsciiAlnum c = true := by
    intro c hc
    obtain ⟨d, hd, rfl⟩ := mem_normChars hc
    exact isAsciiAlnum_toUpper hd
  have hnospace : ∀ c ∈ normChars l, pyIsSpace c = false :=
    fun c hc => pyIsSpace_eq_false_of_isAsciiAlnum (halnum c hc)
  conv_lhs => rw [normChars]
  rw [stripChars_eq_of_no_space hnospace]
  rw [List.filter_eq_self.mpr halnum]
  have : ∀ c ∈ normChars l, c.toUpper = c := by
    intro c hc
    obtain ⟨d, _, rfl⟩ := mem_normChars hc
    exact toUpper_toUpper d
  calc (normChars l).map Char.toUpper
      = (normChars l).map id := List.map_congr_left (fun c hc => this c hc)
    _ = normChars l := List.map_id _

/-- C7. `normalize_key` trims whitespace, strips every character that is not
an ASCII letter or digit, uppercases the remainder; it is idempotent on all
strings, and on the claim's examples `" abc-123 "` and `"ABC123"` both map
to `"ABC123"`. -/
theorem normalize_key_idem_and_examples :
    (∀ s : String, normalize_key (normalize_key s) = normalize_key s) ∧
    normalize_key " abc-123 " = "ABC123" ∧
    normalize_key "ABC123" = "ABC123" := by
  refine ⟨fun s => ?_, by decide, by decide⟩
  show String.mk (normChars (String.mk (normChars s.data)).data) = _
  exact congrArg String.mk (normChars_idem s.data)

/-! ### The reconciliation data model (reconciliation.py, `main`, lines 105-171)

Rows enter the join after the script has (a) selected and alias-mapped a
provider column on each side (lines 105-109), (b) normalized the key column
(lines 111-112) and (c) coerced the commission columns to numbers with
`fillna(0)` (lines 114-118).  An input row is therefore reduced to its three
relevant cells; `none` in `keyCell`/provider means a missing value, `none`
in a numeric cell means a value `pd.to_numeric` cannot parse. -/

structure OrderRow where
  keyCell : Option String
  provider_orders : Option String
  expectedCell : Option ℚ
deriving DecidableEq

structure CommissionRow where
  keyCell : Option String
  provider_commissions : Option String
  billedCell : Option ℚ
deriving DecidableEq

/-- `astype(str)` rendering of a cell (first step of `normalize_key`
applied to a column, line 21): a missing value (`NaN`) prints as `"nan"`. -/
def cellStr (c : Option String) : String := c.getD "nan"

/-- Normalized join key of an order row (line 111). -/
def okey (o : OrderRow) : String := normalize_key (cellStr o.keyCell)

/-- Normalized join key of a commission row (line 112). -/
def ckey (c : CommissionRow) : String := normalize_key (cellStr c.keyCell)

/-- `ExpectedCommissionUSD` of an order row after coercion and `fillna(0)`
(line 114). -/
def oexp (o : OrderRow) : ℚ := o.expectedCell.getD 0

/-- `BilledCommissionUSD` of a commission row after coercion and `fillna(0)`
(lines 115-118). -/
def cbill (c : CommissionRow) : ℚ := c.billedCell.getD 0

/-- The pandas `_merge` indicator column added by `indicator=True`
(line 125). -/
inductive Merge
  | both
  | left_only
  | right_only
deriving DecidableEq

/-- One row of the merged frame (lines 120-130): key, the two provider
cells, the two (zero-filled) commission amounts, and the `_merge`
indicator. -/
structure MergedRow where
  key : String
  provider_orders : Option String
  provider_commissions : Option String
  ExpectedCommissionUSD : ℚ
  BilledCommissionUSD : ℚ
  _merge : Merge
deriving DecidableEq

/-- `CommissionGapUSD` (line 130): expected minus billed, both already
zero-filled. -/
def CommissionGapUSD (m : MergedRow) : ℚ :=
  m.ExpectedCommissionUSD - m.BilledCommissionUSD

/-- `Provider` (lines 131-135): order-side provider, `combine_first` with
the commission-side provider, `fillna("Unassigned")`. -/
def Provider (m : MergedRow) : String :=
  (m.provider_orders.orElse (fun _ => m.provider_commissions)).getD "Unassigned"

/-- The merged row produced for an order/commission pair sharing a key. -/
def bothRow (o : OrderRow) (c : CommissionRow) : MergedRow :=
  ⟨okey o, o.provider_orders, c.provider_commissions, oexp o, cbill c, Merge.both⟩

/-- The merged row for an order row with no key partner: the commission-side
cells are `NaN`, so `BilledCommissionUSD` is filled to `0` (line 129) and
the commission-side provider is missing. -/
def leftRow (o : OrderRow) : MergedRow :=
  ⟨okey o, o.provider_orders, none, oexp o, 0, Merge.left_only⟩

/-- The merged row for a commission row with no key partner (symmetric,
`ExpectedCommissionUSD` filled to `0` by line 128). -/
def rightRow (c : CommissionRow) : MergedRow :=
  ⟨ckey c, none, c.provider_commissions, 0, cbill c, Merge.right_only⟩

/-- The contribution of one order row to the outer merge: one `both` row per
commission row sharing its key, or a single `left_only` row when none does. -/
def orderBlock (cs : List CommissionRow) (o : OrderRow) : List MergedRow :=
  if (cs.filter (fun c => ckey c == okey o)).isEmpty then [leftRow o]
  else (cs.filter (fun c => ckey c == okey o)).map (bothRow o)

/-- The outer merge of lines 120-129 as a list of rows.  Every
(order, commission) pair sharing a key yields one `both` row; unmatched
order rows yield `left_only` rows; unmatched commission rows yield
`right_only` rows.  The pandas row ordering is not modelled — every claim
below is about memberships, counts and sums. -/
def merged (os : List OrderRow) (cs : List CommissionRow) : List MergedRow :=
  (os.map (orderBlock cs)).flatten ++
    ((cs.filter (fun c => os.all (fun o => !(okey o == ckey c)))).map rightRow)

/-- Partition `matches` (line 138): rows with `_merge == "both"`.
(`matches` is a reserved word in Lean, hence the `_df` suffix.) -/
def matches_df (os : List OrderRow) (cs : List CommissionRow) : List MergedRow :=
  (merged os cs).filter (fun m => m._merge == Merge.both)

/-- Partition `orders_only` (line 139): rows with `_merge == "left_only"`. -/
def orders_only (os : List OrderRow) (cs : List CommissionRow) : List MergedRow :=
  (merged os cs).filter (fun m => m._merge == Merge.left_only)

/-- Partition `commissions_only` (line 140): rows with
`_merge == "right_only"`. -/
def commissions_only (os : List OrderRow) (cs : List CommissionRow) : List MergedRow :=
  (merged os cs).filter (fun m => m._merge == Merge.right_only)

/-- Partition `gaps` (line 141): the rows of `matches` whose absolute gap
exceeds the tolerance (strict `>`). -/
def gaps (os : List OrderRow) (cs : List CommissionRow) (tolerance : ℚ) : List MergedRow :=
  (matches_df os cs).filter (fun m => decide (|CommissionGapUSD m| > tolerance))

/-- `tolerance = float(config.get("tolerance", 0.25))` (line 137): the
configured value when present, `0.25` otherwise; no validation happens. -/
def get_tolerance (config_tolerance : Option ℚ) : ℚ :=
  config_tolerance.getD 0.25

/-- `safe_sum` (lines 37-41) applied to an already-numeric column: the sum,
`0.0` on an empty column. -/
def safe_sum (l : List ℚ) : ℚ := l.sum

/-- One row of the `summary` frame (lines 143-171). -/
structure SummaryRow where
  Category : String
  Records : ℕ
  ExpectedCommissionUSD : ℚ
  BilledCommissionUSD : ℚ
  CommissionGapUSD : ℚ
deriving DecidableEq

/-- The `summary` frame (lines 143-171): four fixed category rows built from
the four partitions; the `Orders Missing Commission` billed sum and the
`Commission Missing Order` expected sum are the literal `0`s of lines 156
and 161. -/
def summary (os : List OrderRow) (cs : List CommissionRow) (tolerance : ℚ) :
    List SummaryRow :=
  [⟨"Perfect Match", (matches_df os cs).length,
      safe_sum ((matches_df os cs).map (·.ExpectedCommissionUSD)),
      safe_sum ((matches_df os cs).map (·.BilledCommissionUSD)),
      safe_sum ((matches_df os cs).map CommissionGapUSD)⟩,
   ⟨"Commission Gap", (gaps os cs tolerance).length,
      safe_sum ((gaps os cs tolerance).map (·.ExpectedCommissionUSD)),
      safe_sum ((gaps os cs tolerance).map (·.BilledCommissionUSD)),
      safe_sum ((gaps os cs tolerance).map CommissionGapUSD)⟩,
   ⟨"Orders Missing Commission", (orders_only os cs).length,
      safe_sum ((orders_only os cs).map (·.ExpectedCommissionUSD)),
      0,
      safe_sum ((orders_only os cs).map CommissionGapUSD)⟩,
   ⟨"Commission Missing Order", (commissions_only os cs).length,
      0,
      safe_sum ((commissions_only os cs).map (·.BilledCommissionUSD)),
      safe_sum ((commissions_only os cs).map CommissionGapUSD)⟩]

/-! ### Structural lemmas about the merge and the four partitions -/

theorem mem_matches_iff {os : List OrderRow} {cs : List CommissionRow} {m : MergedRow} :
    m ∈ matches_df os cs ↔ m ∈ merged os cs ∧ m._merge = Merge.both := by
  simp [matches_df, List.mem_filter]

theorem mem_orders_only_iff {os : List OrderRow} {cs : List CommissionRow} {m : MergedRow} :
    m ∈ orders_only os cs ↔ m ∈ merged os cs ∧ m._merge = Merge.left_only := by
  simp [orders_only, List.mem_filter]

theorem mem_commissions_only_iff {os : List OrderRow} {cs : List CommissionRow}
    {m : MergedRow} :
    m ∈ commissions_only os cs ↔ m ∈ merged os cs ∧ m._merge = Merge.right_only := by
  simp [commissions_only, List.mem_filter]

theorem mem_gaps_iff {os : List OrderRow} {cs : List CommissionRow} {t : ℚ} {m : MergedRow} :
    m ∈ gaps os cs t ↔ m ∈ matches_df os cs ∧ t < |CommissionGapUSD m| := by
  simp [gaps, List.mem_filter]

theorem three_way_count (l : List MergedRow) :
    (l.filter (fun m => m._merge == Merge.both)).length
      + (l.filter (fun m => m._merge == Merge.left_only)).length
      + (l.filter (fun m => m._merge == Merge.right_only)).length = l.length := by
  induction l with
  | nil => rfl
  | cons a l ih =>
      cases h : a._merge <;> simp [List.filter_cons, h] <;> omega

/-- `matches` is exactly one `both` row per (order, commission) pair sharing
a key. -/
theorem matches_eq (os : List OrderRow) (cs : List CommissionRow) :
    matches_df os cs =
      (os.map (fun o => (cs.filter (fun c => ckey c == okey o)).map (bothRow o))).flatten := by
  unfold matches_df merged
  rw [List.filter_append]
  have hr : ((cs.filter (fun c => os.all (fun o => !(okey o == ckey c)))).map rightRow).filter
      (fun m => m._merge == Merge.both) = [] := by
    apply List.filter_eq_nil_iff.mpr
    intro a ha
    obtain ⟨c, _, rfl⟩ := List.mem_map.mp ha
    simp [rightRow]
  rw [hr, List.append_nil, List.filter_flatten, List.map_map]
  congr 1
  apply List.map_congr_left
  intro o _
  show (orderBlock cs o).filter (fun m => m._merge == Merge.both) = _
  unfold orderBlock
  by_cases he : (cs.filter (fun c => ckey c == okey o)).isEmpty
  · rw [if_pos he]
    rw [List.isEmpty_iff.mp he]
    simp [leftRow]
  · rw [if_neg he]
    rw [List.filter_map]
    have : ((cs.filter (fun c => ckey c == okey o)).filter
        ((fun m => m._merge == Merge.both) ∘ bothRow o)) =
        cs.filter (fun c => ckey c == okey o) := by
      apply List.filter_eq_self.mpr
      intro a _
      simp [bothRow, Function.comp]
    rw [this]

theorem flatten_if_singleton {α β : Type} (p : α → Bool) (f : α → β) (os : List α) :
    (os.map (fun o => if p o then [f o] else [])).flatten = (os.filter p).map f := by
  induction os with
  | nil => rfl
  | cons a os ih =>
      by_cases h : p a <;> simp [h, List.filter_cons, ih]

/-- `orders_only` is exactly one `left_only` row per order row whose key has
no commission partner. -/
theorem orders_only_eq (os : List OrderRow) (cs : List CommissionRow) :
    orders_only os cs =
      (os.filter (fun o => (cs.filter (fun c => ckey c == okey o)).isEmpty)).map leftRow := by
  unfold orders_only merged
  rw [List.filter_append]
  have hr : ((cs.filter (fun c => os.all (fun o => !(okey o == ckey c)))).map rightRow).filter
      (fun m => m._merge == Merge.left_only) = [] := by
    apply List.filter_eq_nil_iff.mpr
    intro a ha
    obtain ⟨c, _, rfl⟩ := List.mem_map.mp ha
    simp [rightRow]
  rw [hr, List.append_nil, List.filter_flatten, List.map_map]
  rw [← flatten_if_singleton (fun o => (cs.filter (fun c => ckey c == okey o)).isEmpty) leftRow]
  congr 1
  apply List.map_congr_left
  intro o _
  show (orderBlock cs o).filter (fun m => m._merge == Merge.left_only) = _
  unfold orderBlock
  by_cases he : (cs.filter (fun c => ckey c == okey o)).isEmpty
  · rw [if_pos he, if_pos he]
    simp [leftRow]
  · rw [if_neg he, if_neg he]
    apply List.filter_eq_nil_iff.mpr
    intro a ha
    obtain ⟨c, _, rfl⟩ := List.mem_map.mp ha
    simp [bothRow]

/-- `commissions_only` is exactly one `right_only` row per commission row
whose key has no order partner. -/
theorem commissions_only_eq (os : List OrderRow) (cs : List CommissionRow) :
    commissions_only os cs =
      (cs.filter (fun c => os.all (fun o => !(okey o == ckey c)))).map rightRow := by
  unfold commissions_only merged
  rw [List.filter_append]
  have hl : ((os.map (orderBlock cs)).flatten).filter
      (fun m => m._merge == Merge.right_only) = [] := by
    apply List.filter_eq_nil_iff.mpr
    intro a ha
    obtain ⟨l, hl, hal⟩ := List.mem_flatten.mp ha
    obtain ⟨o, _, rfl⟩ := List.mem_map.mp hl
    revert hal
    unfold orderBlock
    by_cases he : (cs.filter (fun c => ckey c == okey o)).isEmpty
    · rw [if_pos he]
      intro hal
      simp only [List.mem_singleton] at hal
      subst hal
      simp [leftRow]
    · rw [if_neg he]
      intro hal
      obtain ⟨c, _, rfl⟩ := List.mem_map.mp hal
      simp [bothRow]
  rw [hl, List.nil_append]
  apply List.filter_eq_self.mpr
  intro a ha
  obtain ⟨c, _, rfl⟩ := List.mem_map.mp ha
  simp [rightRow]

/-- An order row and a commission row sharing a normalized key produce their
`both` row in the merge. -/
theorem bothRow_mem_merged {os : List OrderRow} {cs : List CommissionRow}
    {o : OrderRow} {c : CommissionRow} (ho : o ∈ os) (hc : c ∈ cs)
    (hk : ckey c = okey o) : bothRow o c ∈ merged os cs := by
  rw [merged, List.mem_append]
  left
  rw [List.mem_flatten]
  refine ⟨orderBlock cs o, List.mem_map_of_mem (orderBlock cs) ho, ?_⟩
  unfold orderBlock
  have hcm : c ∈ cs.filter (fun c => ckey c == okey o) :=
    List.mem_filter.mpr ⟨hc, by simp [hk]⟩
  have hne : (cs.filter (fun c => ckey c == okey o)).isEmpty = false := by
    rw [List.isEmpty_eq_false]
    exact List.ne_nil_of_mem hcm
  rw [hne]
  simp only [Bool.false_eq_true, if_false]
  exact List.mem_map_of_mem (bothRow o) hcm

/-- Concrete evaluation helper: on a one-order/one-commission input with
matching keys the merge is the single `both` row. -/
theorem merged_single {o : OrderRow} {c : CommissionRow} (hk : ckey c = okey o) :
    merged [o] [c] = [bothRow o c] := by
  have hk' : (ckey c == okey o) = true := by simp [hk]
  have hno : (!(okey o == ckey c)) = false := by simp [hk]
  simp [merged, orderBlock, List.filter_cons, hk', hno]

/-- Concrete evaluation helper: `matches` on that input. -/
theorem matches_single {o : OrderRow} {c : CommissionRow} (hk : ckey c = okey o) :
    matches_df [o] [c] = [bothRow o c] := by
  rw [matches_df, merged_single hk]
  simp [bothRow, List.filter_cons]

/-- Concrete evaluation helper: `orders_only` on that input is empty. -/
theorem orders_only_single {o : OrderRow} {c : CommissionRow} (hk : ckey c = okey o) :
    orders_only [o] [c] = [] := by
  rw [orders_only, merged_single hk]
  simp [bothRow, List.filter_cons]

/-- Concrete evaluation helper: `commissions_only` on that input is empty. -/
theorem commissions_only_single {o : OrderRow} {c : CommissionRow} (hk : ckey c = okey o) :
    commissions_only [o] [c] = [] := by
  rw [commissions_only, merged_single hk]
  simp [bothRow, List.filter_cons]

/-- Concrete evaluation helper: `gaps` keeps the single row iff its absolute
gap exceeds the tolerance. -/
theorem gaps_single_pos {o : OrderRow} {c : CommissionRow} {t : ℚ}
    (hk : ckey c = okey o) (hgt : t < |CommissionGapUSD (bothRow o c)|) :
    gaps [o] [c] t = [bothRow o c] := by
  rw [gaps, matches_single hk]
  simp [List.filter_cons, decide_eq_true hgt]

/-- Concrete evaluation helper: `gaps` drops the single row iff its absolute
gap is within the tolerance. -/
theorem gaps_single_neg {o : OrderRow} {c : CommissionRow} {t : ℚ}
    (hk : ckey c = okey o) (hle : |CommissionGapUSD (bothRow o c)| ≤ t) :
    gaps [o] [c] t = [] := by
  rw [gaps, matches_single hk]
  have : (decide (t < |CommissionGapUSD (bothRow o c)|)) = false := by
    simp only [decide_eq_false_iff_not, not_lt]
    exact hle
  simp [List.filter_cons, this]

/-! ### Claims C1 and C2: the four partitions and conservation -/

/-- Order row of the shared counterexample input: key `"K"`, expected `100`. -/
def exOrder : OrderRow := ⟨some "K", none, some 100⟩

/-- Commission row of the shared counterexample input: key `"K"`, billed `0`. -/
def exCommission : CommissionRow := ⟨some "K", none, some 0⟩

/-- C1 (counterexample). With one order (`"K"`, expected 100), one commission
(`"K"`, billed 0) and the default tolerance 0.25, the single joined record
appears in both the `matches` ("Perfect Match") partition and the `gaps`
("Commission Gap") partition — not in exactly one of the four partitions:
line 141 takes `gaps` as a subset of `matches` without removing those rows
from `matches`. -/
theorem gap_row_in_two_partitions :
    bothRow exOrder exCommission ∈ matches_df [exOrder] [exCommission] ∧
    bothRow exOrder exCommission ∈ gaps [exOrder] [exCommission] 0.25 := by
  have hk : ckey exCommission = okey exOrder := by decide
  have hgt : (0.25 : ℚ) < |CommissionGapUSD (bothRow exOrder exCommission)| := by
    show (0.25 : ℚ) < |(100 : ℚ) - 0|
    norm_num
  rw [matches_single hk, gaps_single_pos hk hgt]
  exact ⟨List.mem_singleton_self _, List.mem_singleton_self _⟩

/-- C1 (amended). The three `_merge`-based partitions (`matches`,
`orders_only`, `commissions_only`) are pairwise disjoint and cover the
merged record set exactly; the fourth output partition `gaps` however is a
subset of `matches`, so a `both` record whose absolute gap exceeds the
tolerance appears in two of the four output partitions. -/
theorem partitions_amended (os : List OrderRow) (cs : List CommissionRow) (t : ℚ) :
    ((matches_df os cs).length + (orders_only os cs).length
        + (commissions_only os cs).length = (merged os cs).length) ∧
    (∀ m ∈ merged os cs,
        m ∈ matches_df os cs ∨ m ∈ orders_only os cs ∨ m ∈ commissions_only os cs) ∧
    (∀ m, ¬(m ∈ matches_df os cs ∧ m ∈ orders_only os cs)) ∧
    (∀ m, ¬(m ∈ matches_df os cs ∧ m ∈ commissions_only os cs)) ∧
    (∀ m, ¬(m ∈ orders_only os cs ∧ m ∈ commissions_only os cs)) ∧
    (∀ m ∈ gaps os cs t, m ∈ matches_df os cs) := by
  refine ⟨three_way_count (merged os cs), ?_, ?_, ?_, ?_, ?_⟩
  · intro m hm
    cases h : m._merge with
    | both => exact Or.inl (mem_matches_iff.mpr ⟨hm, h⟩)
    | left_only => exact Or.inr (Or.inl (mem_orders_only_iff.mpr ⟨hm, h⟩))
    | right_only => exact Or.inr (Or.inr (mem_commissions_only_iff.mpr ⟨hm, h⟩))
  · rintro m ⟨h1, h2⟩
    rw [mem_matches_iff] at h1
    rw [mem_orders_only_iff] at h2
    rw [h1.2] at h2
    exact Merge.noConfusion h2.2
  · rintro m ⟨h1, h2⟩
    rw [mem_matches_iff] at h1
    rw [mem_commissions_only_iff] at h2
    rw [h1.2] at h2
    exact Merge.noConfusion h2.2
  · rintro m ⟨h1, h2⟩
    rw [mem_orders_only_iff] at h1
    rw [mem_commissions_only_iff] at h2
    rw [h1.2] at h2
    exact Merge.noConfusion h2.2
  · intro m hm
    exact (mem_gaps_iff.mp hm).1

/-- Witness for `partitions_amended` at a concrete input. -/
theorem partitions_amended_witness :
    bothRow exOrder exCommission ∈ matches_df [exOrder] [exCommission] ∨
    bothRow exOrder exCommission ∈ orders_only [exOrder] [exCommission] ∨
    bothRow exOrder exCommission ∈ commissions_only [exOrder] [exCommission] :=
  (partitions_amended [exOrder] [exCommission] 0.25).2.1
    (bothRow exOrder exCommission) (by decide)

/-- Number of commission rows sharing an order row's normalized key
(the cross-product multiplicity of that order row in the merge). -/
def matchCount (cs : List CommissionRow) (o : OrderRow) : ℕ :=
  (cs.filter (fun c => ckey c == okey o)).length

/-- C2 (counterexample). On the C1 input, the expected-commission sums of
Perfect Match (`matches`), Commission Gap (`gaps`) and Orders Missing
Commission (`orders_only`) — summary lines 152-156 — add up to 200, while
the order records only carry 100: the gap record's expected commission is
double-counted because `gaps ⊆ matches`. -/
theorem conservation_violated :
    safe_sum ((matches_df [exOrder] [exCommission]).map (·.ExpectedCommissionUSD))
        + safe_sum ((gaps [exOrder] [exCommission] 0.25).map (·.ExpectedCommissionUSD))
        + safe_sum ((orders_only [exOrder] [exCommission]).map (·.ExpectedCommissionUSD))
      = 200 ∧
    safe_sum ([exOrder].map oexp) = 100 ∧
    (200 : ℚ) ≠ 100 := by
  have hk : ckey exCommission = okey exOrder := by decide
  have hgt : (0.25 : ℚ) < |CommissionGapUSD (bothRow exOrder exCommission)| := by
    show (0.25 : ℚ) < |(100 : ℚ) - 0|
    norm_num
  refine ⟨?_, ?_, by norm_num⟩
  · rw [matches_single hk, gaps_single_pos hk hgt, orders_only_single hk]
    show (100 : ℚ) + 0 + ((100 : ℚ) + 0) + 0 = 200
    norm_num
  · show (100 : ℚ) + 0 = 100
    norm_num

theorem sum_expected_matches (os : List OrderRow) (cs : List CommissionRow) :
    safe_sum ((matches_df os cs).map (·.ExpectedCommissionUSD))
      = (os.map (fun o => oexp o * (matchCount cs o : ℚ))).sum := by
  rw [matches_eq]
  unfold safe_sum
  induction os with
  | nil => rfl
  | cons a os ih =>
      rw [List.map_cons, List.flatten_cons, List.map_append, List.sum_append, ih,
        List.map_cons, List.sum_cons]
      have hrep : ((cs.filter (fun c => ckey c == okey a)).map (bothRow a)).map
          (fun m => m.ExpectedCommissionUSD)
          = List.replicate (cs.filter (fun c => ckey c == okey a)).length (oexp a) := by
        rw [List.map_map, ← List.map_const']
        rfl
      rw [hrep, List.sum_replicate, nsmul_eq_mul]
      unfold matchCount
      ring

theorem sum_expected_orders_only (os : List OrderRow) (cs : List CommissionRow) :
    safe_sum ((orders_only os cs).map (·.ExpectedCommissionUSD))
      = ((os.filter (fun o => (cs.filter (fun c => ckey c == okey o)).isEmpty)).map oexp).sum := by
  rw [orders_only_eq, List.map_map]
  rfl

/-- C2 (amended). The conservation that actually holds drops the `gaps`
summand (it is a subset of `matches`) and weights every order row by its
cross-product multiplicity: the expected-commission sums of `matches` and
`orders_only` together equal the sum over order rows of
`expected * max 1 (number of commission rows sharing the key)`.  With the
`gaps` sum added, gap rows are double-counted (see the counterexample), and
with duplicate commission-side keys an order row is counted once per
partner. -/
theorem conservation_amended (os : List OrderRow) (cs : List CommissionRow) :
    safe_sum ((matches_df os cs).map (·.ExpectedCommissionUSD))
        + safe_sum ((orders_only os cs).map (·.ExpectedCommissionUSD))
      = (os.map (fun o => oexp o * ((max 1 (matchCount cs o) : ℕ) : ℚ))).sum := by
  rw [sum_expected_matches, sum_expected_orders_only]
  induction os with
  | nil => simp
  | cons a os ih =>
      rw [List.map_cons, List.sum_cons, List.filter_cons, List.map_cons, List.sum_cons]
      by_cases he : (cs.filter (fun c => ckey c == okey a)).isEmpty = true
      · have hc : matchCount cs a = 0 := by
          unfold matchCount
          rw [List.isEmpty_iff.mp he]
          rfl
        rw [if_pos he, List.map_cons, List.sum_cons, hc]
        rw [← ih]
        norm_num
        ring
      · have hne : cs.filter (fun c => ckey c == okey a) ≠ [] := by
          intro h0
          exact he (by rw [h0]; rfl)
        have hc : 1 ≤ matchCount cs a := List.length_pos.mpr hne
        rw [if_neg he, Nat.max_eq_right hc, ← ih]
        ring

/-! ### Claim C3: inclusive tolerance boundary -/

/-- C3. Classification of a `both` record is decided by the strict filter of
line 141: when the absolute gap is at most the tolerance the record stays
out of `gaps` (Perfect Match), and when it exceeds the tolerance it enters
`gaps` (Commission Gap); with tolerance `0.25`, expected `100` and billed
`99.75` (gap magnitude exactly the tolerance) is a Perfect Match, while
billed `99.74` is a Commission Gap. -/
theorem tolerance_boundary_inclusive :
    (∀ (t : ℚ) (os : List OrderRow) (cs : List CommissionRow) (m : MergedRow),
      m ∈ merged os cs → m._merge = Merge.both →
        ((|CommissionGapUSD m| ≤ t →
            m ∈ matches_df os cs ∧ m ∉ gaps os cs t) ∧
         (t < |CommissionGapUSD m| → m ∈ gaps os cs t))) ∧
    (bothRow ⟨some "B", none, some 100⟩ ⟨some "B", none, some 99.75⟩ ∈
        matches_df [⟨some "B", none, some 100⟩] [⟨some "B", none, some 99.75⟩] ∧
     bothRow ⟨some "B", none, some 100⟩ ⟨some "B", none, some 99.75⟩ ∉
        gaps [⟨some "B", none, some 100⟩] [⟨some "B", none, some 99.75⟩] 0.25) ∧
    bothRow ⟨some "B", none, some 100⟩ ⟨some "B", none, some 99.74⟩ ∈
        gaps [⟨some "B", none, some 100⟩] [⟨some "B", none, some 99.74⟩] 0.25 := by
  refine ⟨?_, ?_, ?_⟩
  · intro t os cs m hm hboth
    constructor
    · intro hle
      refine ⟨mem_matches_iff.mpr ⟨hm, hboth⟩, ?_⟩
      intro hg
      exact absurd (mem_gaps_iff.mp hg).2 (not_lt.mpr hle)
    · intro hgt
      exact mem_gaps_iff.mpr ⟨mem_matches_iff.mpr ⟨hm, hboth⟩, hgt⟩
  · have hk : ckey ⟨some "B", none, some (99.75 : ℚ)⟩
        = okey (⟨some "B", none, some (100 : ℚ)⟩ : OrderRow) := by decide
    refine ⟨?_, ?_⟩
    · rw [matches_single hk]
      exact List.mem_singleton_self _
    · rw [gaps_single_neg hk (by
        show |(100 : ℚ) - 99.75| ≤ 0.25
        rw [show (100 : ℚ) - 99.75 = 0.25 by norm_num,
          abs_of_nonneg (by norm_num : (0 : ℚ) ≤ 0.25)])]
      exact List.not_mem_nil _
  · have hk : ckey ⟨some "B", none, some (99.74 : ℚ)⟩
        = okey (⟨some "B", none, some (100 : ℚ)⟩ : OrderRow) := by decide
    rw [gaps_single_pos hk (by
      show (0.25 : ℚ) < |(100 : ℚ) - 99.74|
      rw [show (100 : ℚ) - 99.74 = 0.26 by norm_num,
        abs_of_nonneg (by norm_num : (0 : ℚ) ≤ 0.26)]
      norm_num)]
    exact List.mem_singleton_self _

/-- Witness for `tolerance_boundary_inclusive` at a concrete input. -/
theorem tolerance_boundary_inclusive_witness :
    bothRow exOrder exCommission ∈ gaps [exOrder] [exCommission] 0.25 :=
  (tolerance_boundary_inclusive.1 0.25 [exOrder] [exCommission]
      (bothRow exOrder exCommission)
      (by rw [merged_single (show ckey exCommission = okey exOrder by decide)]
          exact List.mem_singleton_self _)
      rfl).2
    (by show (0.25 : ℚ) < |(100 : ℚ) - 0|
        norm_num)

/-! ### Claim C4: full outer join with cross-product semantics -/

/-- `matches` in cross-product form: one `both` row for every
(order, commission) pair of the cartesian product that shares a key. -/
theorem matches_eq_product (os : List OrderRow) (cs : List CommissionRow) :
    matches_df os cs =
      ((os ×ˢ cs).filter (fun p => ckey p.2 == okey p.1)).map
        (fun p => bothRow p.1 p.2) := by
  rw [matches_eq]
  induction os with
  | nil => rfl
  | cons a os ih =>
      rw [List.map_cons, List.flatten_cons, List.product_cons, List.filter_append,
        List.map_append, ← ih, List.filter_map]
      congr 1
      rw [List.map_map]
      rfl

/-- The two order rows of the duplicate-key example (key `"K"`, expected 10
and 20). -/
def exOrderK1 : OrderRow := ⟨some "K", none, some 10⟩

def exOrderK2 : OrderRow := ⟨some "K", none, some 20⟩

/-- The single commission row of the duplicate-key example (key `"K"`,
billed 5). -/
def exCommissionK : CommissionRow := ⟨some "K", none, some 5⟩

/-- C4. The merge is a full outer join with cross-product semantics: the
`both` rows are exactly one row per (order, commission) pair sharing a key;
a key present only in orders yields one `left_only` row per order row with
billed `0` (hence gap = expected); commission-only keys are symmetric with
expected `0`; on the duplicate-key example (two orders with key `"K"`,
expected 10 and 20, one commission with key `"K"`, billed 5) the merge has
exactly 2 rows with gaps 5 and 15. -/
theorem outer_join_cross_product :
    (∀ (os : List OrderRow) (cs : List CommissionRow),
      matches_df os cs =
        ((os ×ˢ cs).filter (fun p => ckey p.2 == okey p.1)).map
          (fun p => bothRow p.1 p.2)) ∧
    (∀ (os : List OrderRow) (cs : List CommissionRow),
      orders_only os cs =
        (os.filter (fun o => (cs.filter (fun c => ckey c == okey o)).isEmpty)).map
          leftRow) ∧
    (∀ o : OrderRow, (leftRow o).BilledCommissionUSD = 0 ∧
      (leftRow o)._merge = Merge.left_only ∧ CommissionGapUSD (leftRow o) = oexp o) ∧
    (∀ (os : List OrderRow) (cs : List CommissionRow),
      commissions_only os cs =
        (cs.filter (fun c => os.all (fun o => !(okey o == ckey c)))).map rightRow) ∧
    (∀ c : CommissionRow, (rightRow c).ExpectedCommissionUSD = 0 ∧
      (rightRow c)._merge = Merge.right_only ∧
      CommissionGapUSD (rightRow c) = -(cbill c)) ∧
    (merged [exOrderK1, exOrderK2] [exCommissionK]).length = 2 ∧
    (merged [exOrderK1, exOrderK2] [exCommissionK]).map CommissionGapUSD = [5, 15] := by
  have hmer : merged [exOrderK1, exOrderK2] [exCommissionK]
      = [bothRow exOrderK1 exCommissionK, bothRow exOrderK2 exCommissionK] := by
    decide
  refine ⟨matches_eq_product, orders_only_eq, ?_, commissions_only_eq, ?_, ?_, ?_⟩
  · intro o
    refine ⟨rfl, rfl, ?_⟩
    show oexp o - 0 = oexp o
    ring
  · intro c
    refine ⟨rfl, rfl, ?_⟩
    show (0 : ℚ) - cbill c = -(cbill c)
    ring
  · rw [hmer]
    rfl
  · rw [hmer]
    show [(10 : ℚ) - 5, (20 : ℚ) - 5] = [5, 15]
    norm_num

/-! ### Claim C5: tolerance validation and default -/

/-- Order row of the negative-tolerance example (key `"A"`, expected 100). -/
def exOrder5 : OrderRow := ⟨some "A", none, some 100⟩

/-- Commission row of the negative-tolerance example (key `"A"`,
billed 100). -/
def exCommission5 : CommissionRow := ⟨some "A", none, some 100⟩

/-- C5 (counterexample). A negative configured tolerance is not rejected:
line 137 reads `float(config.get("tolerance", 0.25))` with no validation,
and reconciliation proceeds — with tolerance `-1` the pipeline still joins,
classifies and summarizes, and the example's perfectly matching record
(gap `0`) is put in the `gaps` ("Commission Gap") partition, so the summary
counts it under both Perfect Match and Commission Gap. -/
theorem negative_tolerance_not_rejected :
    get_tolerance (some (-1)) = -1 ∧
    CommissionGapUSD (bothRow exOrder5 exCommission5) = 0 ∧
    gaps [exOrder5] [exCommission5] (get_tolerance (some (-1)))
      = [bothRow exOrder5 exCommission5] ∧
    (summary [exOrder5] [exCommission5] (get_tolerance (some (-1)))).map (·.Records)
      = [1, 1, 0, 0] := by
  have hk : ckey exCommission5 = okey exOrder5 := by decide
  have hgap : CommissionGapUSD (bothRow exOrder5 exCommission5) = 0 := by
    show (100 : ℚ) - 100 = 0
    norm_num
  have hgt : get_tolerance (some (-1)) < |CommissionGapUSD (bothRow exOrder5 exCommission5)| := by
    rw [hgap]
    show (-1 : ℚ) < |(0 : ℚ)|
    norm_num
  refine ⟨rfl, hgap, gaps_single_pos hk hgt, ?_⟩
  show (summary [exOrder5] [exCommission5] (get_tolerance (some (-1)))).map (·.Records)
      = [1, 1, 0, 0]
  unfold summary
  rw [matches_single hk, gaps_single_pos hk hgt, orders_only_single hk,
    commissions_only_single hk]
  rfl

/-- C5 (amended). No validation is performed on the configured tolerance:
any rational tolerance, including negative ones, is used as-is, and under a
negative tolerance every `both` record lands in the `gaps` partition (its
absolute gap is `≥ 0 >` tolerance); when no tolerance is supplied the
default `0.25` is used. -/
theorem tolerance_unvalidated_amended :
    get_tolerance none = 0.25 ∧
    (∀ (t : ℚ) (os : List OrderRow) (cs : List CommissionRow), t < 0 →
      ∀ m ∈ matches_df os cs, m ∈ gaps os cs t) := by
  refine ⟨rfl, ?_⟩
  intro t os cs ht m hm
  exact mem_gaps_iff.mpr ⟨hm, lt_of_lt_of_le ht (abs_nonneg _)⟩

/-- Witness for `tolerance_unvalidated_amended` at a concrete input. -/
theorem tolerance_unvalidated_amended_witness :
    bothRow exOrder5 exCommission5 ∈ gaps [exOrder5] [exCommission5] (-1) :=
  tolerance_unvalidated_amended.2 (-1) [exOrder5] [exCommission5] (by norm_num)
    (bothRow exOrder5 exCommission5)
    (by rw [matches_single (show ckey exCommission5 = okey exOrder5 by decide)]
        exact List.mem_singleton_self _)

/-! ### Claim C6: provider resolution -/

/-- Lowercasing applied to column names (lines 86-87) and candidate names
(line 102 and line 46). -/
def lowerStr (s : String) : String := String.mk (s.data.map Char.toLower)

/-- `ensure_provider_column` (lines 44-50), reduced to its decision: the
first candidate whose lowercase form is among the frame's (already
lowercased) column names is the column whose values become
`provider_<suffix>`; `none` means no candidate column exists and the whole
provider column is filled with `pd.NA` (line 50). -/
def ensure_provider_column (columns : List String) (candidates : List String) :
    Option String :=
  candidates.find? (fun c => columns.contains (lowerStr c))

/-- The provider cell the script ends up with for one record (a record is
modelled as a cell lookup by column name): the chosen column's value on
that record; `none` when no candidate column exists or that record's cell
in the chosen column is missing. -/
def provider_value (row : String → Option String) (columns candidates : List String) :
    Option String :=
  match ensure_provider_column columns candidates with
  | none => none
  | some c => row (lowerStr c)

/-- `.replace(provider_map)` on one provider cell (lines 108-109): a value
that is a key of the map is replaced by its image, any other value is kept,
a missing cell stays missing. -/
def apply_alias (provider_map : List (String × String)) (v : Option String) :
    Option String :=
  v.map (fun s => (((provider_map.find? (fun p => p.1 == s)).map Prod.snd).getD s))

/-- The `ProviderResolver` as the spec words it (stated for refinement
comparison, not translated from the source): pick the first candidate field
that is present among the columns and non-empty on the record, apply the
alias map to its value, return `"Unassigned"` when no candidate yields a
value. -/
def resolveSpec (row : String → Option String) (columns candidates : List String)
    (provider_map : List (String × String)) : String :=
  match candidates.findSome? (fun c =>
      if columns.contains (lowerStr c) then
        (row (lowerStr c)).bind (fun v => if v = "" then none else some v)
      else none) with
  | some v => (apply_alias provider_map (some v)).getD "Unassigned"
  | none => "Unassigned"

/-- A record whose `provider` cell is missing but whose `supplier` cell
holds `"X"`. -/
def exRecord : String → Option String :=
  fun col => if col = "supplier" then some "X" else none

/-- C6 (counterexample). On a table with columns `provider` and `supplier`
and a record with no `provider` value but `supplier = "X"`, the spec's
per-record resolver returns `"X"`, while the script — which selects the
`provider` column once for the whole table (lines 44-50) and never falls
back to a later candidate field per record — leaves the cell missing, so
the merged record's provider resolves to `"Unassigned"`. -/
theorem provider_resolution_not_per_record :
    resolveSpec exRecord ["provider", "supplier"] ["provider", "supplier"] [] = "X" ∧
    provider_value exRecord ["provider", "supplier"] ["provider", "supplier"] = none ∧
    Provider ⟨"K",
      provider_value exRecord ["provider", "supplier"] ["provider", "supplier"],
      none, 0, 0, Merge.left_only⟩ = "Unassigned" := by
  decide

/-- C6 (amended). Column selection is per table, not per record: the script
picks the first candidate whose lowercase form is among the table's columns
(case-insensitively) and uses that single column's cell for every record,
with no per-record fallback to later candidate fields; the alias map
rewrites a cell value exactly when it is a key of the map; a table with no
candidate column yields a missing provider for every record; and the joined
record's provider prefers the order-side cell, then the commission-side
cell, then `"Unassigned"`. -/
theorem provider_resolution_amended :
    (∀ (columns cands₁ cands₂ : List String) (c : String),
      (∀ c' ∈ cands₁, columns.contains (lowerStr c') = false) →
      columns.contains (lowerStr c) = true →
      ensure_provider_column columns (cands₁ ++ c :: cands₂) = some c) ∧
    (∀ (columns cands : List String),
      (∀ c ∈ cands, columns.contains (lowerStr c) = false) →
      ensure_provider_column columns cands = none) ∧
    (∀ (row : String → Option String) (columns cands : List String) (c : String),
      ensure_provider_column columns cands = some c →
      provider_value row columns cands = row (lowerStr c)) ∧
    (∀ (pm : List (String × String)) (s : String) (p : String × String),
      pm.find? (fun q => q.1 == s) = some p → apply_alias pm (some s) = some p.2) ∧
    (∀ (pm : List (String × String)) (s : String),
      pm.find? (fun q => q.1 == s) = none → apply_alias pm (some s) = some s) ∧
    (∀ m : MergedRow,
      (∀ p, m.provider_orders = some p → Provider m = p) ∧
      (m.provider_orders = none → ∀ p, m.provider_commissions = some p → Provider m = p) ∧
      (m.provider_orders = none → m.provider_commissions = none →
        Provider m = "Unassigned")) := by
  refine ⟨?_, ?_, ?_, ?_, ?_, ?_⟩
  · intro columns cands₁ cands₂ c h1 h2
    induction cands₁ with
    | nil =>
        rw [List.nil_append]
        unfold ensure_provider_column
        exact List.find?_cons_of_pos _ h2
    | cons a cands₁ ih =>
        rw [List.cons_append]
        unfold ensure_provider_column
        rw [List.find?_cons_of_neg]
        · exact ih (fun c' hc' => h1 c' (List.mem_cons_of_mem a hc'))
        · simpa using h1 a (List.mem_cons_self a cands₁)
  · intro columns cands h
    induction cands with
    | nil => rfl
    | cons a cands ih =>
        unfold ensure_provider_column
        rw [List.find?_cons_of_neg]
        · exact ih (fun c hc => h c (List.mem_cons_of_mem a hc))
        · simpa using h a (List.mem_cons_self a cands)
  · intro row columns cands c h
    unfold provider_value
    rw [h]
  · intro pm s p h
    unfold apply_alias
    simp [h]
  · intro pm s h
    unfold apply_alias
    simp [h]
  · intro m
    refine ⟨?_, ?_, ?_⟩
    · intro p hp
      simp [Provider, hp, Option.orElse]
    · intro ho p hp
      simp [Provider, ho, hp, Option.orElse]
    · intro ho hp
      simp [Provider, ho, hp, Option.orElse]

/-- Witness for `provider_resolution_amended` at concrete inputs. -/
theorem provider_resolution_amended_witness :
    ensure_provider_column ["provider", "supplier"] ["zzz", "provider", "supplier"]
      = some "provider" ∧
    apply_alias [("IB", "Iberia")] (some "IB") = some "Iberia" :=
  ⟨(provider_resolution_amended.1 ["provider", "supplier"] ["zzz"] ["supplier"]
      "provider" (by decide) (by decide)),
   (provider_resolution_amended.2.2.2.1 [("IB", "Iberia")] "IB" ("IB", "Iberia")
      (by decide))⟩

/-! ### Claim C8: summary has four fixed rows -/

/-- C8. For every input, the summary table has exactly four rows in the
fixed order Perfect Match, Commission Gap, Orders Missing Commission,
Commission Missing Order, and a category with zero records appears with
count 0 and all three sums 0. -/
theorem summary_four_fixed_rows (os : List OrderRow) (cs : List CommissionRow) (t : ℚ) :
    ((summary os cs t).map (·.Category)
      = ["Perfect Match", "Commission Gap", "Orders Missing Commission",
         "Commission Missing Order"]) ∧
    (summary os cs t).length = 4 ∧
    (∀ r ∈ summary os cs t, r.Records = 0 →
      r.ExpectedCommissionUSD = 0 ∧ r.BilledCommissionUSD = 0 ∧
      r.CommissionGapUSD = 0) := by
  refine ⟨rfl, rfl, ?_⟩
  intro r hr h0
  unfold summary at hr
  simp only [List.mem_cons, List.not_mem_nil, or_false] at hr
  rcases hr with rfl | rfl | rfl | rfl
  · have he : matches_df os cs = [] := List.length_eq_zero.mp h0
    simp [he, safe_sum]
  · have he : gaps os cs t = [] := List.length_eq_zero.mp h0
    simp [he, safe_sum]
  · have he : orders_only os cs = [] := List.length_eq_zero.mp h0
    simp [he, safe_sum]
  · have he : commissions_only os cs = [] := List.length_eq_zero.mp h0
    simp [he, safe_sum]

/-- Witness for `summary_four_fixed_rows` at the empty input. -/
theorem summary_four_fixed_rows_witness :
    (⟨"Perfect Match", 0, 0, 0, 0⟩ : SummaryRow).ExpectedCommissionUSD = 0 ∧
    (⟨"Perfect Match", 0, 0, 0, 0⟩ : SummaryRow).BilledCommissionUSD = 0 ∧
    (⟨"Perfect Match", 0, 0, 0, 0⟩ : SummaryRow).CommissionGapUSD = 0 :=
  (summary_four_fixed_rows [] [] 0.25).2.2 ⟨"Perfect Match", 0, 0, 0, 0⟩
    (by decide) (by decide)

/-! ### Claim C9: missing keys normalize to "NAN" and cross-join -/

/-- Order row with a missing key cell. -/
def exOrderNaN : OrderRow := ⟨none, none, some 7⟩

/-- Commission row with a missing key cell. -/
def exCommissionNaN : CommissionRow := ⟨none, none, some 3⟩

/-- C9. A missing key cell is rendered `"nan"` by `astype(str)` and
normalized to `"NAN"`, so every row with an absent locator on either side
gets the join key `"NAN"`; consequently an order row and a commission row
that both lack locators are cross-joined into a `both` record instead of
being rejected or left unmatched. -/
theorem missing_keys_share_NAN :
    normalize_key (cellStr none) = "NAN" ∧
    (∀ o : OrderRow, o.keyCell = none → okey o = "NAN") ∧
    (∀ c : CommissionRow, c.keyCell = none → ckey c = "NAN") ∧
    (∀ (os : List OrderRow) (cs : List CommissionRow) (o : OrderRow)
        (c : CommissionRow), o ∈ os → c ∈ cs →
      o.keyCell = none → c.keyCell = none →
        bothRow o c ∈ merged os cs ∧ (bothRow o c)._merge = Merge.both) := by
  refine ⟨by decide, ?_, ?_, ?_⟩
  · intro o h
    unfold okey
    rw [h]
    decide
  · intro c h
    unfold ckey
    rw [h]
    decide
  · intro os cs o c ho hc hko hkc
    have hk : ckey c = okey o := by
      unfold ckey okey
      rw [hko, hkc]
    exact ⟨bothRow_mem_merged ho hc hk, rfl⟩

/-- Witness for `missing_keys_share_NAN` at concrete rows. -/
theorem missing_keys_share_NAN_witness :
    okey exOrderNaN = "NAN" ∧
    bothRow exOrderNaN exCommissionNaN ∈ merged [exOrderNaN] [exCommissionNaN] :=
  ⟨missing_keys_share_NAN.2.1 exOrderNaN rfl,
   (missing_keys_share_NAN.2.2.2 [exOrderNaN] [exCommissionNaN] exOrderNaN
      exCommissionNaN (List.mem_singleton_self _) (List.mem_singleton_self _)
      rfl rfl).1⟩

end Pipeline

namespace Combine

/-!
### `pipeline/combine_commissions.py`

The script coerces `BilledCommissionUSD` to numbers with `fillna(0)`
(line 27), then groups by `(Provider, BookingLocator)` and sums the value
column (lines 29-33).  pandas `groupby` defaults to `dropna=True`: rows
whose `Provider` or `BookingLocator` is missing are dropped from the
grouping.  The final `sort_values` only reorders rows and does not affect
the per-locator sums studied here.
-/

structure ExportRow where
  Provider : Option String
  BookingLocator : Option String
  BilledCommissionUSD : Option ℚ
deriving DecidableEq

/-- `pd.to_numeric(..., errors="coerce").fillna(0)` (line 27). -/
def value (r : ExportRow) : ℚ := r.BilledCommissionUSD.getD 0

/-- The group keys of `df.groupby([PROVIDER_COL, LOCATOR_COL])`: the
distinct `(Provider, BookingLocator)` pairs, excluding rows where either
key is missing (pandas `dropna=True` default). -/
def groupKeys (rows : List ExportRow) : List (String × String) :=
  (rows.filterMap (fun r => r.Provider.bind
    (fun p => r.BookingLocator.map (fun l => (p, l))))).dedup

/-- The summed value of one `(Provider, BookingLocator)` group. -/
def groupSum (rows : List ExportRow) (k : String × String) : ℚ :=
  ((rows.filter (fun r =>
      r.Provider == some k.1 && r.BookingLocator == some k.2)).map value).sum

/-- The `grouped` frame (lines 29-33): one row per group key with the
summed value. -/
def grouped (rows : List ExportRow) : List (String × String × ℚ) :=
  (groupKeys rows).map (fun k => (k.1, k.2, groupSum rows k))

/-- Per-locator total of the raw frame (the `orig_totals` side of the
validation snapshot, lines 39-43). -/
def rawLocTotal (rows : List ExportRow) (L : String) : ℚ :=
  ((rows.filter (fun r => r.BookingLocator == some L)).map value).sum

/-- Per-locator total of the grouped frame (the `grouped_totals` side,
lines 45-49). -/
def groupedLocTotal (rows : List ExportRow) (L : String) : ℚ :=
  (((grouped rows).filter (fun g => g.2.1 == L)).map (fun g => g.2.2)).sum

theorem sum_map_filter_split {α : Type} (p : α → Bool) (val : α → ℚ) (l : List α) :
    ((l.filter p).map val).sum + ((l.filter (fun x => !(p x))).map val).sum
      = (l.map val).sum := by
  induction l with
  | nil => simp
  | cons a l ih =>
      rw [List.filter_cons, List.filter_cons, List.map_cons, List.sum_cons]
      by_cases h : p a = true
      · rw [if_pos h, h]
        simp only [Bool.not_true, Bool.false_eq_true, if_false, List.map_cons,
          List.sum_cons]
        rw [← ih]
        ring
      · rw [if_neg h, Bool.not_eq_true] at *
        rw [h]
        simp only [Bool.not_false, if_true, List.map_cons, List.sum_cons]
        rw [← ih]
        ring

/-- Summing fiberwise over a duplicate-free list of keys covering a list
recovers the total sum. -/
theorem sum_fibers {α κ : Type} [BEq κ] [LawfulBEq κ] (key : α → κ) (val : α → ℚ) :
    ∀ (ks : List κ) (l : List α), ks.Nodup → (∀ x ∈ l, key x ∈ ks) →
      (ks.map (fun k => ((l.filter (fun x => key x == k)).map val).sum)).sum
        = (l.map val).sum := by
  intro ks
  induction ks with
  | nil =>
      intro l _ hcov
      cases l with
      | nil => rfl
      | cons a l => exact absurd (hcov a (List.mem_cons_self a l)) (List.not_mem_nil _)
  | cons k ks ih =>
      intro l hnd hcov
      rw [List.map_cons, List.sum_cons]
      have hfib : ∀ k' ∈ ks,
          (l.filter (fun x => !(key x == k))).filter (fun x => key x == k')
            = l.filter (fun x => key x == k') := by
        intro k' hk'
        have hkk : k' ≠ k := fun he => (List.nodup_cons.mp hnd).1 (he ▸ hk')
        rw [List.filter_filter]
        apply List.filter_congr
        intro x _
        by_cases hx : key x = k'
        · have hkx : (key x == k) = false := by
            rw [hx]
            exact beq_eq_false_iff_ne.mpr hkk
          rw [hkx, Bool.not_false, Bool.and_true]
        · have hx' : (key x == k') = false := beq_eq_false_iff_ne.mpr hx
          rw [hx', Bool.false_and]
      have hcov' : ∀ x ∈ l.filter (fun x => !(key x == k)), key x ∈ ks := by
        intro x hx
        obtain ⟨hxl, hxk⟩ := List.mem_filter.mp hx
        have := hcov x hxl
        rw [List.mem_cons] at this
        rcases this with h | h
        · exfalso
          rw [h] at hxk
          simp at hxk
        · exact h
      have hih := ih (l.filter (fun x => !(key x == k))) (List.nodup_cons.mp hnd).2 hcov'
      have hmapeq : ks.map (fun k' =>
            (((l.filter (fun x => !(key x == k))).filter
              (fun x => key x == k')).map val).sum)
          = ks.map (fun k' => ((l.filter (fun x => key x == k')).map val).sum) :=
        List.map_congr_left (fun k' hk' => by rw [hfib k' hk'])
      rw [hmapeq] at hih
      rw [hih]
      exact sum_map_filter_split (fun x => key x == k) val l

/-- The key under which a row with non-missing `Provider` and
`BookingLocator` is grouped. -/
def rowKey (r : ExportRow) : String × String :=
  (r.Provider.getD "", r.BookingLocator.getD "")

/-- The row of the missing-provider counterexample: no `Provider`, locator
`"L"`, billed `5`. -/
def exRowNoProv : ExportRow := ⟨none, some "L", some 5⟩

/-- C10 (counterexample). pandas `groupby` drops rows whose `Provider` is
missing (`dropna=True` default), so a raw row with locator `"L"`, a missing
provider and billed value `5` contributes `5` to the raw per-locator total
but nothing to the grouped output — the grouped frame is empty. -/
theorem grouped_total_drops_missing_provider :
    grouped [exRowNoProv] = [] ∧
    groupedLocTotal [exRowNoProv] "L" = 0 ∧
    rawLocTotal [exRowNoProv] "L" = 5 ∧
    groupedLocTotal [exRowNoProv] "L" ≠ rawLocTotal [exRowNoProv] "L" := by
  have h1 : grouped [exRowNoProv] = [] := rfl
  have h2 : groupedLocTotal [exRowNoProv] "L" = 0 := rfl
  have h3 : rawLocTotal [exRowNoProv] "L" = 5 := by
    show (5 : ℚ) + 0 = 5
    norm_num
  refine ⟨h1, h2, h3, ?_⟩
  rw [h2, h3]
  norm_num

/-- C10 (amended). The consolidation preserves per-locator totals over the
rows the grouping keeps: for every locator `L`, the grouped per-locator
total equals the raw sum over rows with locator `L` and a non-missing
`Provider`; in particular, on tables where every row has a provider, the
claimed per-locator conservation holds exactly.  Rows with a missing
`Provider` are silently dropped by the grouping (see the counterexample). -/
theorem grouped_totals_amended :
    (∀ (rows : List ExportRow) (L : String),
      groupedLocTotal rows L
        = ((rows.filter (fun r =>
            r.Provider.isSome && r.BookingLocator == some L)).map value).sum) ∧
    (∀ (rows : List ExportRow) (L : String),
      (∀ r ∈ rows, r.Provider.isSome) →
        groupedLocTotal rows L = rawLocTotal rows L) := by
  have hmain : ∀ (rows : List ExportRow) (L : String),
      groupedLocTotal rows L
        = ((rows.filter (fun r =>
            r.Provider.isSome && r.BookingLocator == some L)).map value).sum := by
    intro rows L
    have hstep : groupedLocTotal rows L
        = (((groupKeys rows).filter (fun k => k.2 == L)).map (groupSum rows)).sum := by
      unfold groupedLocTotal grouped
      rw [List.filter_map, List.map_map]
      rfl
    rw [hstep]
    set l := rows.filter (fun r => r.Provider.isSome && r.BookingLocator == some L) with hl
    have hnd : ((groupKeys rows).filter (fun k => k.2 == L)).Nodup :=
      List.Nodup.filter _ (List.nodup_dedup _)
    have hcov : ∀ x ∈ l, rowKey x ∈ (groupKeys rows).filter (fun k => k.2 == L) := by
      intro x hx
      obtain ⟨hxrows, hxp⟩ := List.mem_filter.mp hx
      rw [Bool.and_eq_true] at hxp
      obtain ⟨hps, hlo⟩ := hxp
      obtain ⟨p, hp⟩ := Option.isSome_iff_exists.mp hps
      have hloc : x.BookingLocator = some L := by
        have := hlo
        rwa [beq_iff_eq] at this
      have hkey : rowKey x = (p, L) := by
        unfold rowKey
        rw [hp, hloc]
        rfl
      rw [hkey]
      apply List.mem_filter.mpr
      refine ⟨?_, by simp⟩
      unfold groupKeys
      apply List.mem_dedup.mpr
      apply List.mem_filterMap.mpr
      exact ⟨x, hxrows, by rw [hp, hloc]; rfl⟩
    have hfib : ∀ k ∈ (groupKeys rows).filter (fun k => k.2 == L),
        groupSum rows k = ((l.filter (fun x => rowKey x == k)).map value).sum := by
      intro k hk
      have hk2 : k.2 = L := by
        have := (List.mem_filter.mp hk).2
        rwa [beq_iff_eq] at this
      have hfilter : l.filter (fun x => rowKey x == k)
          = rows.filter (fun r =>
              r.Provider == some k.1 && r.BookingLocator == some k.2) := by
        rw [hl, List.filter_filter]
        apply List.filter_congr
        intro r _
        cases hP : r.Provider with
        | none => simp [rowKey, hP]
        | some p =>
            cases hLo : r.BookingLocator with
            | none => simp [rowKey, hLo]
            | some lo =>
                simp only [rowKey, hP, hLo, Option.getD_some, Option.isSome_some,
                  Bool.true_and]
                rw [← hk2]
                by_cases h2 : lo = k.2
                · by_cases h1 : p = k.1
                  · have hpk : (p, lo) = k := by rw [h1, h2]
                    simp [hpk, h1, h2]
                  · have hb1 : ((p, lo) == k) = false :=
                      beq_eq_false_iff_ne.mpr (fun he => h1 (congrArg Prod.fst he))
                    have hb2 : (some p == some k.1) = false :=
                      beq_eq_false_iff_ne.mpr (fun he => h1 (Option.some.inj he))
                    rw [hb1, hb2, Bool.false_and]
                · have hb : (some lo == some k.2) = false :=
                    beq_eq_false_iff_ne.mpr (fun he => h2 (Option.some.inj he))
                  rw [hb, Bool.and_false, Bool.and_false]
      unfold groupSum
      rw [← hfilter]
    calc (((groupKeys rows).filter (fun k => k.2 == L)).map (groupSum rows)).sum
        = (((groupKeys rows).filter (fun k => k.2 == L)).map
            (fun k => ((l.filter (fun x => rowKey x == k)).map value).sum)).sum := by
          exact congrArg List.sum (List.map_congr_left hfib)
      _ = (l.map value).sum := sum_fibers rowKey value _ l hnd hcov
  refine ⟨hmain, ?_⟩
  intro rows L hall
  rw [hmain rows L]
  unfold rawLocTotal
  have : rows.filter (fun r => r.Provider.isSome && r.BookingLocator == some L)
      = rows.filter (fun r => r.BookingLocator == some L) := by
    apply List.filter_congr
    intro r hr
    rw [hall r hr, Bool.true_and]
  rw [this]

/-- The row of the amended-claim witness: provider `"P"`, locator `"L"`,
billed `5`. -/
def exRowProv : ExportRow := ⟨some "P", some "L", some 5⟩

/-- Witness for `grouped_totals_amended` at a concrete input. -/
theorem grouped_totals_amended_witness :
    groupedLocTotal [exRowProv] "L" = rawLocTotal [exRowProv] "L" :=
  grouped_totals_amended.2 [exRowProv] "L" (by decide)

end Combine
